import Mathlib

/-!
Verification of the call-frame-unwinding core of the `elf-info` tool.

The development shallowly embeds the relevant parts of the source:
`src/eh.rs` (pointer-encoding codec `value`/`value_abs`, the
`EhInstrContext` CFA state tracker, the `.eh_frame` entry loop and the
`.eh_frame_hdr` table renderer), `src/sym.rs` (`addr_to_sym`) and
`src/func.rs` (the `EhFnCtx` disassembly/unwind overlay).

Machine integers are embedded as `Nat`/`Int`; u64/i64 wrap-around is made
explicit with `% 2^64` (release-mode wrapping semantics).  Places where the
Rust code panics (`panic!`, `unimplemented!`, `HashMap` indexing, slice
indexing, `unwrap`) are embedded as distinguished panic outcomes so that
claims about structured-vs-fatal error behaviour can be settled.
-/

namespace ElfInfo

/-- Two's-complement reinterpretation of a `w`-bit unsigned value as signed,
mirroring Rust `as iN` casts on an `N`-bit source. -/
def toSigned (w : Nat) (n : Nat) : Int :=
  if n < 2 ^ (w - 1) then (n : Int) else (n : Int) - 2 ^ w

/-- Wrap a mathematical integer into the i64 range, mirroring release-mode
wrapping of i64 arithmetic. -/
def wrapI64 (z : Int) : Int :=
  (z + 2 ^ 63) % 2 ^ 64 - 2 ^ 63

/-- Read `w` bytes little-endian from the front of a byte list
(mirrors byteorder's `read_u16/u32/u64::<LittleEndian>`); `none` when the
buffer is too short. -/
def readLE : Nat → List Nat → Option Nat
  | 0, _ => some 0
  | _ + 1, [] => none
  | w + 1, b :: rest => (readLE w rest).map (fun n => b + 256 * n)

/-- Little-endian byte encoding of `n` on `w` bytes (the synthetic encoder
used to state the decode/resolve round-trip property). -/
def toLEBytes : Nat → Nat → List Nat
  | 0, _ => []
  | w + 1, n => n % 256 :: toLEBytes w (n / 256)

/-- `goblin::container::Container`: 64-bit (`big`) or 32-bit (`little`). -/
inductive Container where
  | big
  | little
deriving DecidableEq, Repr

/-- `print.rs`: `SizePrint` only carries the container width used for hex
rendering. -/
structure SizePrint where
  size : Container
deriving DecidableEq, Repr

/-- `eh.rs`: `enum Value { Signed(i64), Unsigned(u64) }`. -/
inductive Value where
  | signed (n : Int)
  | unsigned (n : Nat)
deriving DecidableEq, Repr

/-- The integer a decoded `Value` denotes. -/
def valToInt : Value → Int
  | .signed n => n
  | .unsigned n => (n : Int)

/-- Outcome of `eh.rs::value`.  The Rust function either returns
`(usize, Value)` or terminates the process: `panic!("invalid encoding")`
for an unrecognized low nibble, `unimplemented!` for the two LEB128
variants, and an `unwrap` panic when the buffer is shorter than the
selected width. -/
inductive DecodeOutcome where
  | ok (size : Nat) (val : Value)
  | panicShortBuffer
  | panicUnimplementedLeb (signed : Bool)
  | panicInvalidEncoding
deriving DecidableEq, Repr

/-- `eh.rs::value(enc, d)`: decode one value from the front of `d` according
to the low nibble of the encoding descriptor byte `enc`. -/
def value (enc : Nat) (d : List Nat) : DecodeOutcome :=
  match enc &&& 0x0f with
  | 0x01 => .panicUnimplementedLeb false
  | 0x02 =>
    match readLE 2 d with
    | some n => .ok 2 (.unsigned n)
    | none => .panicShortBuffer
  | 0x03 =>
    match readLE 4 d with
    | some n => .ok 4 (.unsigned n)
    | none => .panicShortBuffer
  | 0x04 =>
    match readLE 8 d with
    | some n => .ok 8 (.unsigned n)
    | none => .panicShortBuffer
  | 0x09 => .panicUnimplementedLeb true
  | 0x0a =>
    match readLE 2 d with
    | some n => .ok 2 (.signed (toSigned 16 n))
    | none => .panicShortBuffer
  | 0x0b =>
    match readLE 4 d with
    | some n => .ok 4 (.signed (toSigned 32 n))
    | none => .panicShortBuffer
  | 0x0c =>
    match readLE 8 d with
    | some n => .ok 8 (.signed (toSigned 64 n))
    | none => .panicShortBuffer
  | _ => .panicInvalidEncoding

/-- Outcome of `eh.rs::value_abs`: an absolute u64 address, or the
`panic!("invalid encoding")` on an unrecognized high nibble. -/
inductive AbsOutcome where
  | ok (n : Nat)
  | panicInvalidEncoding
deriving DecidableEq, Repr

/-- Base + value with u64/i64 release-mode wrapping:
`base + n` is a wrapping u64 add; `(base as i64 + n) as u64` is a
two's-complement cast, a wrapping i64 add, then a cast back, which composes
to addition modulo `2^64`. -/
def absWith (base : Nat) : Value → Nat
  | .signed n => ((toSigned 64 base + n) % (2 : Int) ^ 64).toNat
  | .unsigned n => (base + n) % 2 ^ 64

/-- `eh.rs::value_abs(enc, v, pc, ehhdr)`: resolve a decoded value against
the base selected by the high nibble of `enc`. -/
def value_abs (enc : Nat) (v : Value) (pc ehhdr : Nat) : AbsOutcome :=
  match enc &&& 0xf0 with
  | 0x00 => .ok (absWith 0 v)
  | 0x10 => .ok (absWith pc v)
  | 0x30 => .ok (absWith ehhdr v)
  | _ => .panicInvalidEncoding

/-- `gimli::CallFrameInstruction` (the arms `eh.rs` matches on).  Registers
are embedded as their numeric ids; DWARF expression bytes are opaque byte
lists.  `delta` is a u32, `offset`/`factored_offset`/`size` are u64 for the
unsigned variants and i64 for the `..Sf` variants. -/
inductive CallFrameInstruction where
  | setLoc (address : Nat)
  | advanceLoc (delta : Nat)
  | defCfa (register : Nat) (offset : Nat)
  | defCfaSf (register : Nat) (factoredOffset : Int)
  | defCfaRegister (register : Nat)
  | defCfaOffset (offset : Nat)
  | defCfaOffsetSf (factoredOffset : Int)
  | defCfaExpression (expr : List Nat)
  | undefined (register : Nat)
  | sameValue (register : Nat)
  | offset (register : Nat) (factoredOffset : Nat)
  | offsetExtendedSf (register : Nat) (factoredOffset : Int)
  | valOffset (register : Nat) (factoredOffset : Nat)
  | valOffsetSf (register : Nat) (factoredOffset : Int)
  | register (destRegister : Nat) (srcRegister : Nat)
  | expression (register : Nat) (expr : List Nat)
  | valExpression (register : Nat) (expr : List Nat)
  | restore (register : Nat)
  | rememberState
  | restoreState
  | argsSize (size : Nat)
  | nop
deriving DecidableEq, Repr

/-- The data displayed by each `println!` arm of `EhInstrContext::print`,
captured structurally (register ids and numeric operands as printed; for
`DW_CFA_offset` the sign character and the printed magnitude of the scaled
byte offset). -/
inductive RenderedInstr where
  | setLoc (address : Nat)
  | advanceLoc (delta : Nat) (newLoc : Nat)
  | defCfa (register : Nat) (offset : Nat)
  | defCfaSf (register : Nat) (factoredOffset : Int)
  | defCfaRegister (register : Nat) (oldOffset : Nat)
  | defCfaOffset (offset : Nat) (cfaRegister : Nat)
  | defCfaOffsetSf (factoredOffset : Int)
  | defCfaExpression (expr : List Nat)
  | undefined (register : Nat)
  | sameValue (register : Nat)
  | offset (register : Nat) (factoredOffset : Nat) (neg : Bool) (magnitude : Int)
  | offsetExtendedSf (register : Nat) (factoredOffset : Int)
  | valOffset (register : Nat) (factoredOffset : Nat)
  | valOffsetSf (register : Nat) (factoredOffset : Int)
  | register (destRegister : Nat) (srcRegister : Nat)
  | expression (register : Nat) (expr : List Nat)
  | valExpression (register : Nat) (expr : List Nat)
  | restore (register : Nat)
  | rememberState
  | restoreState
  | argsSize (size : Nat)
  | nop
deriving DecidableEq, Repr

/-- `eh.rs`: `struct EhInstrContext { cfa_reg, cfa_off, loc, data_align, sp }`. -/
structure EhInstrContext where
  cfa_reg : Nat
  cfa_off : Nat
  loc : Nat
  data_align : Int
  sp : SizePrint
deriving DecidableEq, Repr

/-- `EhInstrContext::print`: apply one call-frame instruction to the tracked
state and return the rendered line.  Mirrors the Rust `match` arm by arm:
`SetLoc` prints the target address but does not update `loc`;
`AdvanceLoc` wraps its u64 addition; only the `Offset` arm multiplies the
factored offset by `data_align` (`factored_offset as i64 * data_align`, an
i64 wrapping product) and prints the sign and `abs()` of the result; the
`..Sf`/`ValOffset` arms print their raw operands; `RememberState` and
`RestoreState` print bare markers and leave every field untouched. -/
def EhInstrContext.print (ctx : EhInstrContext) :
    CallFrameInstruction → EhInstrContext × RenderedInstr
  | .setLoc address => (ctx, .setLoc address)
  | .advanceLoc delta =>
    let newLoc := (ctx.loc + delta) % 2 ^ 64
    ({ ctx with loc := newLoc }, .advanceLoc delta newLoc)
  | .defCfa r o => ({ ctx with cfa_reg := r, cfa_off := o }, .defCfa r o)
  | .defCfaSf r fo => (ctx, .defCfaSf r fo)
  | .defCfaRegister r => ({ ctx with cfa_reg := r }, .defCfaRegister r ctx.cfa_off)
  | .defCfaOffset o => ({ ctx with cfa_off := o }, .defCfaOffset o ctx.cfa_reg)
  | .defCfaOffsetSf fo => (ctx, .defCfaOffsetSf fo)
  | .defCfaExpression e => (ctx, .defCfaExpression e)
  | .undefined r => (ctx, .undefined r)
  | .sameValue r => (ctx, .sameValue r)
  | .offset r fo =>
    let off := wrapI64 (toSigned 64 fo * ctx.data_align)
    (ctx, .offset r fo (decide (off < 0)) (wrapI64 (Int.natAbs off)))
  | .offsetExtendedSf r fo => (ctx, .offsetExtendedSf r fo)
  | .valOffset r fo => (ctx, .valOffset r fo)
  | .valOffsetSf r fo => (ctx, .valOffsetSf r fo)
  | .register d s => (ctx, .register d s)
  | .expression r e => (ctx, .expression r e)
  | .valExpression r e => (ctx, .valExpression r e)
  | .restore r => (ctx, .restore r)
  | .rememberState => (ctx, .rememberState)
  | .restoreState => (ctx, .restoreState)
  | .argsSize s => (ctx, .argsSize s)
  | .nop => (ctx, .nop)

/-- The two fields of `goblin::elf::Sym` that `sym.rs::addr_to_sym` reads
or that identify the returned symbol. -/
structure Sym where
  st_name : Nat
  st_value : Nat
deriving DecidableEq, Repr

/-- The body of the `for` loop of `addr_to_sym`: replace the current best
symbol when the candidate's value is `<= addr` and strictly above the
current best's value. -/
def addrToSymStep (addr : Nat) (curr sym : Sym) : Sym :=
  if sym.st_value ≤ addr ∧ curr.st_value < sym.st_value then sym else curr

/-- `sym.rs::addr_to_sym`: start from the table's first symbol, fold the
update step over the rest, and return `none` when the final candidate's
value still exceeds `addr`. -/
def addr_to_sym (symtab : List Sym) (addr : Nat) : Option Sym :=
  match symtab with
  | [] => none
  | first :: rest =>
    let curr := rest.foldl (addrToSymStep addr) first
    if addr < curr.st_value then none else some curr

/-- The address range of an FDE: initial address and length. -/
structure FdeRange where
  initial_address : Nat
  len : Nat
deriving DecidableEq, Repr

/-- Modelled from the spec: `Fde.contains` is provided by the external
`gimli` crate (only called from `eh.rs`), and the spec defines containment
by the invariant `initial_address <= ip < initial_address + length`. -/
def FdeRange.contains (f : FdeRange) (address : Nat) : Bool :=
  f.initial_address ≤ address && address < f.initial_address + f.len

/-- One entry of a frame-information section as `eh_frame` iterates it:
a CIE carries its offset (the identity key), data-alignment factor and
prologue instructions; an FDE carries the offset of the CIE it references,
its address range and its instruction stream. -/
inductive FrameEntry where
  | cie (offset : Nat) (data_align : Int) (instrs : List CallFrameInstruction)
  | fde (cie_offset : Nat) (initial_address : Nat) (len : Nat)
        (instrs : List CallFrameInstruction)
deriving DecidableEq, Repr

/-- Output events of the `eh_frame` entry loop. -/
inductive FrameEvent where
  | cieHeader (offset : Nat) (data_align : Int)
  | fdeHeader (cie_offset : Nat) (initial_address : Nat) (len : Nat)
  | instr (r : RenderedInstr)
deriving DecidableEq, Repr

/-- The ways the `eh_frame` entry loop terminates the process:
`cies[&offset.0]` is a `HashMap` index that panics when the referenced CIE
offset was never inserted (the subsequent `.unwrap()` would also panic). -/
inductive FramePanicKind where
  | cieKeyNotFound (offset : Nat)
deriving DecidableEq, Repr

/-- Print a list of call-frame instructions through the state tracker,
collecting the rendered lines. -/
def printAll (ctx : EhInstrContext) :
    List CallFrameInstruction → EhInstrContext × List FrameEvent
  | [] => (ctx, [])
  | i :: rest =>
    let (ctx1, r) := ctx.print i
    let (ctx2, evs) := printAll ctx1 rest
    (ctx2, .instr r :: evs)

/-- `eh.rs::eh_frame`'s entry loop: CIEs set the tracker's `data_align`,
print their prologue and are cached by offset; FDEs resolve their CIE from
the cache (a missing key is the `HashMap`-index panic), are optionally
filtered by address containment, reset the tracker's `loc` to the FDE's
initial address and print their instruction stream. -/
def eh_frame_process (ctx : EhInstrContext) (cies : List Nat)
    (addrFilter : Option Nat) :
    List FrameEntry → Except FramePanicKind (List FrameEvent)
  | [] => .ok []
  | .cie off da instrs :: rest =>
    let ctx1 := { ctx with data_align := da }
    let (ctx2, evs) := printAll ctx1 instrs
    (eh_frame_process ctx2 (off :: cies) addrFilter rest).map
      (fun tail => .cieHeader off da :: (evs ++ tail))
  | .fde cieOff init len instrs :: rest =>
    if cieOff ∈ cies then
      let skip :=
        match addrFilter with
        | some addr => !(FdeRange.mk init len).contains addr
        | none => false
      if skip then
        eh_frame_process ctx cies addrFilter rest
      else
        let ctx1 := { ctx with loc := init }
        let (ctx2, evs) := printAll ctx1 instrs
        (eh_frame_process ctx2 cies addrFilter rest).map
          (fun tail => .fdeHeader cieOff init len :: (evs ++ tail))
    else
      .error (.cieKeyNotFound cieOff)

/-- Output events of the disassembly-unwind overlay (`func.rs`):
an unwind annotation line, or one decoded machine-instruction row at its
instruction pointer. -/
inductive OverlayEvent where
  | cfi (r : RenderedInstr)
  | insn (ip : Nat)
deriving DecidableEq, Repr

/-- `func.rs`: the mutable fields of `EhFnCtx` (the CIE/FDE instruction
streams are passed to the functions below, standing for the `gimli`
iterators re-created on each call). -/
structure EhFnCtx where
  instr_ctx : EhInstrContext
  curr_loc : Nat
  cie_shown : Bool
  instr_index : Nat
deriving DecidableEq, Repr

/-- `EhFnCtx::print_instr`: `Nop` prints nothing, `AdvanceLoc` only bumps
`curr_loc` (wrapping u64 add) without printing, and every other instruction
is rendered through the shared `EhInstrContext` tracker. -/
def EhFnCtx.print_instr (s : EhFnCtx) :
    CallFrameInstruction → EhFnCtx × List OverlayEvent
  | .nop => (s, [])
  | .advanceLoc delta =>
    ({ s with curr_loc := (s.curr_loc + delta) % 2 ^ 64 }, [])
  | i =>
    let (ctx, r) := s.instr_ctx.print i
    ({ s with instr_ctx := ctx }, [.cfi r])

/-- The replay loop at the end of `EhFnCtx::at_ip`: before each CFI
instruction, stop when `ip < curr_loc`; otherwise print it and advance
`instr_index`. -/
def replayFrom (ip : Nat) (s : EhFnCtx) :
    List CallFrameInstruction → EhFnCtx × List OverlayEvent
  | [] => (s, [])
  | i :: rest =>
    if ip < s.curr_loc then (s, [])
    else
      let (s1, out1) := s.print_instr i
      let s2 := { s1 with instr_index := s1.instr_index + 1 }
      let (s3, out2) := replayFrom ip s2 rest
      (s3, out1 ++ out2)

/-- The CIE-prologue replay at the start of `EhFnCtx::at_ip`, run once. -/
def printInstrList (s : EhFnCtx) :
    List CallFrameInstruction → EhFnCtx × List OverlayEvent
  | [] => (s, [])
  | i :: rest =>
    let (s1, out1) := s.print_instr i
    let (s2, out2) := printInstrList s1 rest
    (s2, out1 ++ out2)

/-- `EhFnCtx::at_ip(ip)`: replay the CIE prologue on the first call, then
re-iterate the FDE's instruction stream, skip the first `instr_index`
instructions already consumed, and replay from there while
`curr_loc <= ip`. -/
def EhFnCtx.at_ip (s : EhFnCtx)
    (cieInstrs fdeInstrs : List CallFrameInstruction) (ip : Nat) :
    EhFnCtx × List OverlayEvent :=
  let (s1, cieOut) :=
    if s.cie_shown then (s, ([] : List OverlayEvent))
    else
      let (t, out) := printInstrList s cieInstrs
      ({ t with cie_shown := true }, out)
  let (s2, fdeOut) := replayFrom ip s1 (fdeInstrs.drop s1.instr_index)
  (s2, cieOut ++ fdeOut)

/-- The decode loop of `func.rs::disassemble` with CFI annotation enabled:
for each decoded machine instruction, `eh.at_ip(instr.ip())` runs first
(emitting its annotations), then the instruction's own row is printed. -/
def overlay (s : EhFnCtx) (cieInstrs fdeInstrs : List CallFrameInstruction) :
    List Nat → List OverlayEvent
  | [] => []
  | ip :: rest =>
    let (s1, out) := s.at_ip cieInstrs fdeInstrs ip
    out ++ (.insn ip :: overlay s1 cieInstrs fdeInstrs rest)

/-- The panic exits of `eh.rs::eh_frame_hdr`: slice indexing past the end of
the section, and the `value`/`value_abs` panics it inherits. -/
inductive HdrPanicKind where
  | indexOutOfBounds
  | shortBuffer
  | unimplementedLeb
  | invalidEncoding
deriving DecidableEq, Repr

/-- Propagate a `value` outcome into the header renderer. -/
def liftDecode : DecodeOutcome → Except HdrPanicKind (Nat × Value)
  | .ok s v => .ok (s, v)
  | .panicShortBuffer => .error .shortBuffer
  | .panicUnimplementedLeb _ => .error .unimplementedLeb
  | .panicInvalidEncoding => .error .invalidEncoding

/-- Propagate a `value_abs` outcome into the header renderer. -/
def liftAbs : AbsOutcome → Except HdrPanicKind Nat
  | .ok n => .ok n
  | .panicInvalidEncoding => .error .invalidEncoding

/-- The table loop of `eh_frame_hdr`: each entry decodes two values with the
table encoding; the first absolute is resolved at the offset just past the
first value, the second absolute at the same offset (the code advances
`off` only after printing the second resolved address). -/
def hdrEntriesLoop (tenc pc : Nat) (content : List Nat) :
    Nat → Nat → Except HdrPanicKind (List (Value × Nat × Nat × Value))
  | 0, _ => .ok []
  | n + 1, off => do
    let (size1, val1) ← liftDecode (value tenc (content.drop off))
    let off1 := off + size1
    let abs1 ← liftAbs (value_abs tenc val1 (pc + off1) pc)
    let (size2, val2) ← liftDecode (value tenc (content.drop off1))
    let abs2 ← liftAbs (value_abs tenc val2 (pc + off1) pc)
    let rest ← hdrEntriesLoop tenc pc content n (off1 + size2)
    .ok ((val1, abs1, abs2, val2) :: rest)

/-- What `eh_frame_hdr` displays when it completes without panicking. -/
structure HdrRender where
  version : Nat
  ptrVal : Value
  ptrAbs : Nat
  nrEntries : Nat
  entries : List (Value × Nat × Nat × Value)
deriving DecidableEq, Repr

/-- `eh.rs::eh_frame_hdr(pc, content)`: read the version byte and the three
encoding descriptor bytes, decode the `.eh_frame` pointer with
`content[1]` (resolved at `pc + 4`), decode the entry count with
`content[2]` (a signed count is cast `as usize`, wrapping), then decode the
declared number of table entries with `content[3]`.  Every decode goes
through `value`/`value_abs` unconditionally — a `0xff` "no value" encoding
byte reaches `value` and panics there. -/
def eh_frame_hdr (pc : Nat) (content : List Nat) :
    Except HdrPanicKind HdrRender := do
  let some version := content.get? 0 | .error .indexOutOfBounds
  let some enc1 := content.get? 1 | .error .indexOutOfBounds
  let some enc2 := content.get? 2 | .error .indexOutOfBounds
  let some enc3 := content.get? 3 | .error .indexOutOfBounds
  let (size1, ptrVal) ← liftDecode (value enc1 (content.drop 4))
  let ptrAbs ← liftAbs (value_abs enc1 ptrVal (pc + 4) pc)
  let off := 4 + size1
  let (size2, cntVal) ← liftDecode (value enc2 (content.drop off))
  let nr :=
    match cntVal with
    | .signed n => (n % (2 : Int) ^ 64).toNat
    | .unsigned n => n
  let entries ← hdrEntriesLoop enc3 pc content nr (off + size2)
  .ok ⟨version, ptrVal, ptrAbs, nr, entries⟩

/-- The `factored_offset` operand of a call-frame instruction, when it has
one (used to state the claim that all such operands get scaled). -/
def factoredOperand : CallFrameInstruction → Option Int
  | .defCfaSf _ fo => some fo
  | .defCfaOffsetSf fo => some fo
  | .offset _ fo => some (fo : Int)
  | .offsetExtendedSf _ fo => some fo
  | .valOffset _ fo => some (fo : Int)
  | .valOffsetSf _ fo => some fo
  | _ => none

/-- The signed CFA-relative byte offset a rendered line displays, when it
displays one: only the `DW_CFA_offset` arm prints `cfa + m` / `cfa − m`. -/
def renderedSignedCfaOffset : RenderedInstr → Option Int
  | .offset _ _ neg mag => some (if neg then -mag else mag)
  | _ => none

/-- The 18 encoding descriptor bytes whose low nibble selects a fixed
width/sign and whose high nibble selects one of the three bases. -/
def validEncs : List Nat :=
  [0x02, 0x03, 0x04, 0x0a, 0x0b, 0x0c,
   0x12, 0x13, 0x14, 0x1a, 0x1b, 0x1c,
   0x32, 0x33, 0x34, 0x3a, 0x3b, 0x3c]

/-- Number of bytes occupied by a fixed-width encoding. -/
def widthOf (enc : Nat) : Nat :=
  match enc &&& 0x0f with
  | 0x02 => 2
  | 0x03 => 4
  | 0x04 => 8
  | 0x0a => 2
  | 0x0b => 4
  | 0x0c => 8
  | _ => 0

/-- The representable range of a fixed-width encoding. -/
def encRange (enc : Nat) (v : Int) : Prop :=
  match enc &&& 0x0f with
  | 0x02 => 0 ≤ v ∧ v < 2 ^ 16
  | 0x03 => 0 ≤ v ∧ v < 2 ^ 32
  | 0x04 => 0 ≤ v ∧ v < 2 ^ 64
  | 0x0a => -(2 ^ 15) ≤ v ∧ v < 2 ^ 15
  | 0x0b => -(2 ^ 31) ≤ v ∧ v < 2 ^ 31
  | 0x0c => -(2 ^ 63) ≤ v ∧ v < 2 ^ 63
  | _ => False

/-- Synthetically encode `v` into the byte buffer `value` will decode:
`widthOf enc` bytes, little-endian, two's complement for the signed
widths. -/
def encodeValue (enc : Nat) (v : Int) : List Nat :=
  toLEBytes (widthOf enc) ((v % (2 : Int) ^ (8 * widthOf enc)).toNat)

/-- The base `value_abs` adds, per the high nibble. -/
def baseOf (enc pc ehhdr : Nat) : Nat :=
  match enc &&& 0xf0 with
  | 0x00 => 0
  | 0x10 => pc
  | 0x30 => ehhdr
  | _ => 0

/-- C10: applying `DW_CFA_remember_state` or `DW_CFA_restore_state` to the
CFA state tracker leaves the whole tracked state — in particular
`cfa_register`, `cfa_offset`, `location` and `data_alignment` — unchanged:
both arms of `EhInstrContext::print` only print an opaque marker. -/
theorem remember_restore_state_no_effect (ctx : EhInstrContext) :
    (ctx.print .rememberState).1 = ctx ∧ (ctx.print .restoreState).1 = ctx :=
  ⟨rfl, rfl⟩

/-- C3: in the `eh_frame` entry loop, an FDE whose CIE-reference offset was
never cached does not produce a structured "unresolved reference" error:
the `cies[&offset.0]` lookup is a `HashMap` index that panics on the
missing key (here: an FDE referencing CIE offset `0x40` in a stream that
emitted no CIE at all). -/
theorem fde_unseen_cie_panics :
    eh_frame_process ⟨0, 0, 0, 1, ⟨.big⟩⟩ [] none
        [.fde 0x40 0x1000 0x20 []] =
      .error (.cieKeyNotFound 0x40) := by
  rfl

/-- C7: neither an unrecognized low nibble (`0x00`), nor the LEB128
variants (`0x01`, `0x09`), nor an unrecognized high nibble (`0x42`) yield a
structured decode failure — `value` and `value_abs` terminate the process
(`panic!("invalid encoding")` / `unimplemented!`). -/
theorem decode_unrecognized_encodings_panic :
    value 0x00 [0x05] = .panicInvalidEncoding ∧
    value 0x01 [0x05] = .panicUnimplementedLeb false ∧
    value 0x09 [0x05] = .panicUnimplementedLeb true ∧
    value_abs 0x42 (.unsigned 0) 0 0 = .panicInvalidEncoding :=
  ⟨rfl, rfl, rfl, rfl⟩

/-- C8: `eh_frame_hdr` does not suppress an entry whose declared encoding
byte is the "no value" sentinel `0xff`; the sentinel is passed to `value`
unconditionally, which panics on its low nibble `0x0f` (here: a header
declaring `0xff` as the `.eh_frame`-pointer encoding). -/
theorem hdr_no_value_sentinel_panics :
    eh_frame_hdr 0x1000 [0x01, 0xff, 0x03, 0x03] =
      .error .invalidEncoding := by
  rfl

/-- C9 (counterexample): the tracker's location cursor can decrease:
`DW_CFA_advance_loc` adds its delta with wrapping u64 arithmetic, so at
`loc = 2^64 - 1` an `advance_loc(1)` wraps the location to `0`. -/
theorem loc_monotone_counterexample :
    ¬ (∀ (ctx : EhInstrContext) (instr : CallFrameInstruction),
        ctx.loc ≤ ((ctx.print instr).1).loc) := by
  intro h
  have h1 := h ⟨0, 0, 2 ^ 64 - 1, 1, ⟨.big⟩⟩ (.advanceLoc 1)
  simp [EhInstrContext.print] at h1

/-- C4 (counterexample): not every call-frame instruction carrying a
`factored_offset` operand has that operand scaled by `data_align` and
rendered as a CFA-relative byte offset: `DW_CFA_offset_extended_sf(1, 2)`
under `data_align = -8` is rendered with the raw operand `2` and no
CFA-relative offset at all (`renderedSignedCfaOffset` is `none`, not
`some (-16)`). -/
theorem factored_offset_always_scaled_counterexample :
    ¬ (∀ (ctx : EhInstrContext) (instr : CallFrameInstruction) (fo : Int),
        factoredOperand instr = some fo →
        renderedSignedCfaOffset ((ctx.print instr).2) =
          some (fo * ctx.data_align)) := by
  intro h
  have h1 := h ⟨0, 0, 0, -8, ⟨.big⟩⟩ (.offsetExtendedSf 1 2) 2 rfl
  simp [EhInstrContext.print, renderedSignedCfaOffset] at h1

theorem wrapI64_eq_self (z : Int) (h1 : -(2 ^ 63) ≤ z) (h2 : z < 2 ^ 63) :
    wrapI64 z = z := by
  unfold wrapI64
  have e1 : (2 : Int) ^ 63 = 9223372036854775808 := by norm_num
  have e2 : (2 : Int) ^ 64 = 18446744073709551616 := by norm_num
  simp only [e1, e2] at h1 h2 ⊢
  omega

/-- C9 (amended): applying any call-frame instruction never decreases the
tracker's location cursor, provided an `advance_loc`'s u64 addition does
not wrap around: every arm other than `AdvanceLoc` leaves `loc` unchanged
(including `SetLoc`, which prints the target but does not assign it), and
`AdvanceLoc` adds a non-negative delta. -/
theorem loc_monotone_no_overflow (ctx : EhInstrContext)
    (instr : CallFrameInstruction)
    (h : ∀ delta, instr = .advanceLoc delta → ctx.loc + delta < 2 ^ 64) :
    ctx.loc ≤ ((ctx.print instr).1).loc := by
  cases instr
  case advanceLoc delta =>
    have hd := h delta rfl
    show ctx.loc ≤ (ctx.loc + delta) % 2 ^ 64
    rw [Nat.mod_eq_of_lt hd]
    exact Nat.le_add_right _ _
  all_goals exact Nat.le_refl _

/-- Witness for C9's amended theorem at a concrete state and instruction. -/
theorem loc_monotone_no_overflow_witness :
    (⟨0, 0, 5, 1, ⟨.big⟩⟩ : EhInstrContext).loc ≤
      ((EhInstrContext.print ⟨0, 0, 5, 1, ⟨.big⟩⟩ (.advanceLoc 4)).1).loc :=
  loc_monotone_no_overflow ⟨0, 0, 5, 1, ⟨.big⟩⟩ (.advanceLoc 4)
    (by intro delta hd; injection hd with h; subst h; decide)

/-- C4 (amended): for the `DW_CFA_offset` instruction — the only
factored-offset instruction whose rendering shows a CFA-relative byte
offset — the tracker multiplies the operand by the CIE's signed
data-alignment factor and renders the sign and absolute value of the
product (subtraction from the CFA when negative, addition otherwise);
the other factored-offset instructions print their raw operand unscaled. -/
theorem offset_rule_scaled_by_data_align (ctx : EhInstrContext)
    (r fo : Nat) (hfo : fo < 2 ^ 63)
    (hlo : -(2 ^ 63) < (fo : Int) * ctx.data_align)
    (hhi : (fo : Int) * ctx.data_align < 2 ^ 63) :
    (ctx.print (.offset r fo)).2 =
      .offset r fo (decide ((fo : Int) * ctx.data_align < 0))
        ((((fo : Int) * ctx.data_align).natAbs : Int)) := by
  have h1 : toSigned 64 fo = (fo : Int) := by
    unfold toSigned
    rw [if_pos (show fo < 2 ^ (64 - 1) from hfo)]
  have h2 : wrapI64 ((fo : Int) * ctx.data_align) =
      (fo : Int) * ctx.data_align :=
    wrapI64_eq_self _ (le_of_lt hlo) hhi
  have h3 : wrapI64 ((((fo : Int) * ctx.data_align).natAbs : Int)) =
      (((fo : Int) * ctx.data_align).natAbs : Int) := by
    have e1 : (2 : Int) ^ 63 = 9223372036854775808 := by norm_num
    apply wrapI64_eq_self
    · simp only [e1]
      omega
    · simp only [e1] at hlo hhi ⊢
      omega
  simp only [EhInstrContext.print, h1, h2, h3]

/-- Witness for C4's amended theorem: with data-alignment factor `-8` and
factored offset `2`, `DW_CFA_offset(6, 2)` renders the register rule as
`CFA − 16`. -/
theorem offset_rule_scaled_by_data_align_witness :
    (EhInstrContext.print ⟨0, 0, 0, -8, ⟨.big⟩⟩ (.offset 6 2)).2 =
      .offset 6 2 true 16 := by
  rw [offset_rule_scaled_by_data_align ⟨0, 0, 0, -8, ⟨.big⟩⟩ 6 2
    (by decide) (by decide) (by decide)]
  decide

/-- C5 (counterexample): `addr_to_sym` does not always return the symbol
with the greatest value `<= addr`, and `none` does not mean every symbol's
value exceeds `addr`: with table `[{value 10}, {value 3}]` and address `5`,
the first symbol (value 10) can never be replaced — the update requires a
value both `<= 5` and `> 10` — so the lookup returns `none` although the
second symbol's value `3` is `<= 5`. -/
theorem addr_to_sym_counterexample :
    ¬ (∀ (symtab : List Sym) (addr : Nat),
        (∀ s, addr_to_sym symtab addr = some s →
          s ∈ symtab ∧ s.st_value ≤ addr ∧
            ∀ t ∈ symtab, t.st_value ≤ addr → t.st_value ≤ s.st_value) ∧
        (addr_to_sym symtab addr = none ↔
          ∀ t ∈ symtab, addr < t.st_value)) := by
  intro h
  exact absurd (h [⟨0, 10⟩, ⟨1, 3⟩] 5).2 (by decide)

theorem addrToSym_foldl_of_gt (addr : Nat) (curr : Sym)
    (h : addr < curr.st_value) (l : List Sym) :
    l.foldl (addrToSymStep addr) curr = curr := by
  induction l with
  | nil => rfl
  | cons x xs ih =>
    have hx : addrToSymStep addr curr x = curr := by
      unfold addrToSymStep
      rw [if_neg]
      omega
    simp only [List.foldl_cons, hx, ih]

theorem addrToSym_foldl_of_le (addr : Nat) (curr : Sym)
    (h : curr.st_value ≤ addr) (l : List Sym) :
    (l.foldl (addrToSymStep addr) curr).st_value ≤ addr ∧
    (l.foldl (addrToSymStep addr) curr = curr ∨
      l.foldl (addrToSymStep addr) curr ∈ l) ∧
    curr.st_value ≤ (l.foldl (addrToSymStep addr) curr).st_value ∧
    ∀ t ∈ l, t.st_value ≤ addr →
      t.st_value ≤ (l.foldl (addrToSymStep addr) curr).st_value := by
  induction l generalizing curr with
  | nil => exact ⟨h, .inl rfl, Nat.le_refl _, by intro t ht; cases ht⟩
  | cons x xs ih =>
    simp only [List.foldl_cons]
    by_cases hc : x.st_value ≤ addr ∧ curr.st_value < x.st_value
    · have hs : addrToSymStep addr curr x = x := by
        unfold addrToSymStep
        rw [if_pos hc]
      rw [hs]
      obtain ⟨i1, i2, i3, i4⟩ := ih x hc.1
      refine ⟨i1, ?_, ?_, ?_⟩
      · rcases i2 with h2 | h2
        · exact .inr (by rw [h2]; exact List.mem_cons_self x xs)
        · exact .inr (List.mem_cons_of_mem x h2)
      · omega
      · intro t ht hta
        rcases List.mem_cons.mp ht with rfl | htxs
        · omega
        · exact i4 t htxs hta
    · have hs : addrToSymStep addr curr x = curr := by
        unfold addrToSymStep
        rw [if_neg hc]
      rw [hs]
      obtain ⟨i1, i2, i3, i4⟩ := ih curr h
      refine ⟨i1, ?_, i3, ?_⟩
      · rcases i2 with h2 | h2
        · exact .inl h2
        · exact .inr (List.mem_cons_of_mem x h2)
      · intro t ht hta
        rcases List.mem_cons.mp ht with rfl | htxs
        · omega
        · exact i4 t htxs hta

/-- C5 (amended): address-to-symbol lookup returns a symbol with the
greatest value `<= address` among all symbols of the table whenever the
table's FIRST symbol has value `<= address` (in practice the null symbol,
value 0); when the first symbol's value exceeds the address, the lookup
returns no match regardless of the remaining symbols. -/
theorem addr_to_sym_first_anchored (first : Sym) (rest : List Sym)
    (addr : Nat) :
    (addr < first.st_value → addr_to_sym (first :: rest) addr = none) ∧
    (first.st_value ≤ addr →
      ∃ s, addr_to_sym (first :: rest) addr = some s ∧
        s ∈ first :: rest ∧ s.st_value ≤ addr ∧
        ∀ t ∈ first :: rest, t.st_value ≤ addr →
          t.st_value ≤ s.st_value) := by
  constructor
  · intro h
    simp only [addr_to_sym]
    rw [addrToSym_foldl_of_gt addr first h rest, if_pos h]
  · intro h
    obtain ⟨i1, i2, i3, i4⟩ := addrToSym_foldl_of_le addr first h rest
    refine ⟨rest.foldl (addrToSymStep addr) first, ?_, ?_, i1, ?_⟩
    · simp only [addr_to_sym]
      rw [if_neg (by omega)]
    · rcases i2 with h2 | h2
      · rw [h2]; exact List.mem_cons_self first rest
      · exact List.mem_cons_of_mem first h2
    · intro t ht hta
      rcases List.mem_cons.mp ht with rfl | htr
      · omega
      · exact i4 t htr hta

/-- Witness for C5's amended theorem: in `[{0}, {4}, {9}]` at address `5`
the lookup returns the symbol valued `4`, the greatest value `<= 5`. -/
theorem addr_to_sym_first_anchored_witness :
    ∃ s, addr_to_sym [⟨0, 0⟩, ⟨1, 4⟩, ⟨2, 9⟩] 5 = some s ∧
      s ∈ [(⟨0, 0⟩ : Sym), ⟨1, 4⟩, ⟨2, 9⟩] ∧ s.st_value ≤ 5 ∧
      ∀ t ∈ [(⟨0, 0⟩ : Sym), ⟨1, 4⟩, ⟨2, 9⟩], t.st_value ≤ 5 →
        t.st_value ≤ s.st_value :=
  (addr_to_sym_first_anchored ⟨0, 0⟩ [⟨1, 4⟩, ⟨2, 9⟩] 5).2 (by decide)

/-- C6: for u64-valued `initial_address` and `length`, `Fde.contains` is
true exactly on `initial_address <= address < initial_address + length`;
in particular it is false at `initial_address + length` and at the u64
predecessor `initial_address - 1` (computed with u64 wrap-around). -/
theorem fde_contains_iff (init len addr : Nat)
    (hinit : init < 2 ^ 64) (hlen : len < 2 ^ 64) :
    ((FdeRange.mk init len).contains addr = true ↔
      init ≤ addr ∧ addr < init + len) ∧
    (FdeRange.mk init len).contains (init + len) = false ∧
    (FdeRange.mk init len).contains ((init + 2 ^ 64 - 1) % 2 ^ 64) = false := by
  have e64 : (2 : Nat) ^ 64 = 18446744073709551616 := by norm_num
  refine ⟨by simp [FdeRange.contains], by simp [FdeRange.contains], ?_⟩
  simp only [FdeRange.contains, Bool.and_eq_false_iff, decide_eq_false_iff_not,
    not_le, not_lt, e64] at *
  omega

/-- Witness for C6 at a concrete FDE range and query address. -/
theorem fde_contains_iff_witness :
    (((FdeRange.mk 0x1000 0x20).contains 0x1010 = true ↔
      0x1000 ≤ 0x1010 ∧ 0x1010 < 0x1000 + 0x20) ∧
    (FdeRange.mk 0x1000 0x20).contains (0x1000 + 0x20) = false ∧
    (FdeRange.mk 0x1000 0x20).contains ((0x1000 + 2 ^ 64 - 1) % 2 ^ 64) =
      false) :=
  fde_contains_iff 0x1000 0x20 0x1010 (by norm_num) (by norm_num)

/-- C1: overlaying the FDE instruction stream `advance_loc(4)`,
`def_cfa_offset(16)`, `advance_loc(4)` (with an empty CIE prologue) against
two machine instructions of length 4 starting at the FDE's initial address
`a` produces exactly: first machine instruction, then the
`def_cfa_offset(16)` annotation, then the second machine instruction — the
annotation lands strictly between the two rows and never before the
first. -/
theorem overlay_def_cfa_offset_between (a : Nat) (da : Int) (sp : SizePrint)
    (h : a + 8 < 2 ^ 64) :
    overlay ⟨⟨0, 0, a, da, sp⟩, a, false, 0⟩ []
        [.advanceLoc 4, .defCfaOffset 16, .advanceLoc 4] [a, a + 4] =
      [.insn a, .cfi (.defCfaOffset 16 0), .insn (a + 4)] := by
  have e64 : (2 : Nat) ^ 64 = 18446744073709551616 := by norm_num
  rw [e64] at h
  have h4 : (a + 4) % 18446744073709551616 = a + 4 :=
    Nat.mod_eq_of_lt (by omega)
  have h8 : (a + 4 + 4) % 18446744073709551616 = a + 8 := by
    have e : a + 4 + 4 = a + 8 := by omega
    rw [e]
    exact Nat.mod_eq_of_lt h
  simp only [overlay, EhFnCtx.at_ip, printInstrList, replayFrom,
    EhFnCtx.print_instr, EhInstrContext.print, List.drop, e64, h4, h8,
    Bool.false_eq_true, lt_self_iff_false, if_false, lt_add_iff_pos_right,
    if_true, Nat.zero_lt_succ, if_pos, List.nil_append, List.cons_append]

/-- Witness for C1 at initial address `0x1000`. -/
theorem overlay_def_cfa_offset_between_witness :
    overlay ⟨⟨0, 0, 0x1000, -8, ⟨.big⟩⟩, 0x1000, false, 0⟩ []
        [.advanceLoc 4, .defCfaOffset 16, .advanceLoc 4]
        [0x1000, 0x1000 + 4] =
      [.insn 0x1000, .cfi (.defCfaOffset 16 0), .insn (0x1000 + 4)] :=
  overlay_def_cfa_offset_between 0x1000 (-8) ⟨.big⟩ (by norm_num)

theorem readLE_toLEBytes (w m : Nat) (h : m < 2 ^ (8 * w)) :
    readLE w (toLEBytes w m) = some m := by
  induction w generalizing m with
  | zero =>
    have hm : m = 0 := by omega
    subst hm
    rfl
  | succ w ih =>
    have h8 : (2 : Nat) ^ (8 * (w + 1)) = 2 ^ (8 * w) * 256 := by
      rw [Nat.mul_succ, pow_add]
      norm_num
    have hd : m / 256 < 2 ^ (8 * w) := by
      rw [h8] at h
      omega
    simp only [toLEBytes, readLE, ih (m / 256) hd, Option.map_some']
    congr 1
    omega

/-- C2: for every encoding descriptor byte combining a fixed width/sign
(u16, u32, u64, i16, i32, i64) with one of the three bases (absolute,
pc-relative, table-start-relative), decoding a byte buffer into which a
value of that width was synthetically encoded and resolving it against the
chosen base yields exactly base plus the encoded value (stated for u64
inputs and results that stay in the u64 range). -/
theorem decode_resolve_roundtrip (enc : Nat) (v : Int) (pc ehhdr : Nat)
    (henc : enc ∈ validEncs) (hv : encRange enc v)
    (hpc : pc < 2 ^ 64) (hhdr : ehhdr < 2 ^ 64)
    (hlo : 0 ≤ (baseOf enc pc ehhdr : Int) + v)
    (hhi : (baseOf enc pc ehhdr : Int) + v < 2 ^ 64) :
    ∃ val, value enc (encodeValue enc v) = .ok (widthOf enc) val ∧
      valToInt val = v ∧
      value_abs enc val pc ehhdr =
        .ok (((baseOf enc pc ehhdr : Int) + v).toNat) := by
  fin_cases henc
  · simp only [encRange] at hv
    simp only [baseOf] at hlo hhi
    have hwb : encodeValue 0x02 v = toLEBytes 2 ((v % (65536 : Int)).toNat) := by
      simp [encodeValue, widthOf]
    have hb : readLE 2 (toLEBytes 2 ((v % (65536 : Int)).toNat)) =
        some ((v % (65536 : Int)).toNat) :=
      readLE_toLEBytes 2 _ (by omega)
    refine ⟨.unsigned v.toNat, ?_, by simp only [valToInt]; omega, ?_⟩
    · simp [value, widthOf, hwb, hb]
      omega
    · simp only [value_abs, absWith, baseOf]
      congr 1
      omega
  · simp only [encRange] at hv
    simp only [baseOf] at hlo hhi
    have hwb : encodeValue 0x03 v = toLEBytes 4 ((v % (4294967296 : Int)).toNat) := by
      simp [encodeValue, widthOf]
    have hb : readLE 4 (toLEBytes 4 ((v % (4294967296 : Int)).toNat)) =
        some ((v % (4294967296 : Int)).toNat) :=
      readLE_toLEBytes 4 _ (by omega)
    refine ⟨.unsigned v.toNat, ?_, by simp only [valToInt]; omega, ?_⟩
    · simp [value, widthOf, hwb, hb]
      omega
    · simp only [value_abs, absWith, baseOf]
      congr 1
      omega
  · simp only [encRange] at hv
    simp only [baseOf] at hlo hhi
    have hwb : encodeValue 0x04 v = toLEBytes 8 ((v % (18446744073709551616 : Int)).toNat) := by
      simp [encodeValue, widthOf]
    have hb : readLE 8 (toLEBytes 8 ((v % (18446744073709551616 : Int)).toNat)) =
        some ((v % (18446744073709551616 : Int)).toNat) :=
      readLE_toLEBytes 8 _ (by omega)
    refine ⟨.unsigned v.toNat, ?_, by simp only [valToInt]; omega, ?_⟩
    · simp [value, widthOf, hwb, hb]
      omega
    · simp only [value_abs, absWith, baseOf]
      congr 1
      omega
  · simp only [encRange] at hv
    simp only [baseOf] at hlo hhi
    have hwb : encodeValue 0x0a v = toLEBytes 2 ((v % (65536 : Int)).toNat) := by
      simp [encodeValue, widthOf]
    have hb : readLE 2 (toLEBytes 2 ((v % (65536 : Int)).toNat)) =
        some ((v % (65536 : Int)).toNat) :=
      readLE_toLEBytes 2 _ (by omega)
    have he : toSigned 16 ((v % (65536 : Int)).toNat) = v := by
      simp only [toSigned]
      split_ifs <;> omega
    refine ⟨.signed v, ?_, rfl, ?_⟩
    · simp [value, widthOf, hwb, hb, he]
    · simp only [value_abs, absWith, baseOf, toSigned]
      split_ifs <;> (congr 1; omega)
  · simp only [encRange] at hv
    simp only [baseOf] at hlo hhi
    have hwb : encodeValue 0x0b v = toLEBytes 4 ((v % (4294967296 : Int)).toNat) := by
      simp [encodeValue, widthOf]
    have hb : readLE 4 (toLEBytes 4 ((v % (4294967296 : Int)).toNat)) =
        some ((v % (4294967296 : Int)).toNat) :=
      readLE_toLEBytes 4 _ (by omega)
    have he : toSigned 32 ((v % (4294967296 : Int)).toNat) = v := by
      simp only [toSigned]
      split_ifs <;> omega
    refine ⟨.signed v, ?_, rfl, ?_⟩
    · simp [value, widthOf, hwb, hb, he]
    · simp only [value_abs, absWith, baseOf, toSigned]
      split_ifs <;> (congr 1; omega)
  · simp only [encRange] at hv
    simp only [baseOf] at hlo hhi
    have hwb : encodeValue 0x0c v = toLEBytes 8 ((v % (18446744073709551616 : Int)).toNat) := by
      simp [encodeValue, widthOf]
    have hb : readLE 8 (toLEBytes 8 ((v % (18446744073709551616 : Int)).toNat)) =
        some ((v % (18446744073709551616 : Int)).toNat) :=
      readLE_toLEBytes 8 _ (by omega)
    have he : toSigned 64 ((v % (18446744073709551616 : Int)).toNat) = v := by
      simp only [toSigned]
      split_ifs <;> omega
    refine ⟨.signed v, ?_, rfl, ?_⟩
    · simp [value, widthOf, hwb, hb, he]
    · simp only [value_abs, absWith, baseOf, toSigned]
      split_ifs <;> (congr 1; omega)
  · simp only [encRange] at hv
    simp only [baseOf] at hlo hhi
    have hwb : encodeValue 0x12 v = toLEBytes 2 ((v % (65536 : Int)).toNat) := by
      simp [encodeValue, widthOf]
    have hb : readLE 2 (toLEBytes 2 ((v % (65536 : Int)).toNat)) =
        some ((v % (65536 : Int)).toNat) :=
      readLE_toLEBytes 2 _ (by omega)
    refine ⟨.unsigned v.toNat, ?_, by simp only [valToInt]; omega, ?_⟩
    · simp [value, widthOf, hwb, hb]
      omega
    · simp only [value_abs, absWith, baseOf]
      congr 1
      omega
  · simp only [encRange] at hv
    simp only [baseOf] at hlo hhi
    have hwb : encodeValue 0x13 v = toLEBytes 4 ((v % (4294967296 : Int)).toNat) := by
      simp [encodeValue, widthOf]
    have hb : readLE 4 (toLEBytes 4 ((v % (4294967296 : Int)).toNat)) =
        some ((v % (4294967296 : Int)).toNat) :=
      readLE_toLEBytes 4 _ (by omega)
    refine ⟨.unsigned v.toNat, ?_, by simp only [valToInt]; omega, ?_⟩
    · simp [value, widthOf, hwb, hb]
      omega
    · simp only [value_abs, absWith, baseOf]
      congr 1
      omega
  · simp only [encRange] at hv
    simp only [baseOf] at hlo hhi
    have hwb : encodeValue 0x14 v = toLEBytes 8 ((v % (18446744073709551616 : Int)).toNat) := by
      simp [encodeValue, widthOf]
    have hb : readLE 8 (toLEBytes 8 ((v % (18446744073709551616 : Int)).toNat)) =
        some ((v % (18446744073709551616 : Int)).toNat) :=
      readLE_toLEBytes 8 _ (by omega)
    refine ⟨.unsigned v.toNat, ?_, by simp only [valToInt]; omega, ?_⟩
    · simp [value, widthOf, hwb, hb]
      omega
    · simp only [value_abs, absWith, baseOf]
      congr 1
      omega
  · simp only [encRange] at hv
    simp only [baseOf] at hlo hhi
    have hwb : encodeValue 0x1a v = toLEBytes 2 ((v % (65536 : Int)).toNat) := by
      simp [encodeValue, widthOf]
    have hb : readLE 2 (toLEBytes 2 ((v % (65536 : Int)).toNat)) =
        some ((v % (65536 : Int)).toNat) :=
      readLE_toLEBytes 2 _ (by omega)
    have he : toSigned 16 ((v % (65536 : Int)).toNat) = v := by
      simp only [toSigned]
      split_ifs <;> omega
    refine ⟨.signed v, ?_, rfl, ?_⟩
    · simp [value, widthOf, hwb, hb, he]
    · simp only [value_abs, absWith, baseOf, toSigned]
      split_ifs <;> (congr 1; omega)
  · simp only [encRange] at hv
    simp only [baseOf] at hlo hhi
    have hwb : encodeValue 0x1b v = toLEBytes 4 ((v % (4294967296 : Int)).toNat) := by
      simp [encodeValue, widthOf]
    have hb : readLE 4 (toLEBytes 4 ((v % (4294967296 : Int)).toNat)) =
        some ((v % (4294967296 : Int)).toNat) :=
      readLE_toLEBytes 4 _ (by omega)
    have he : toSigned 32 ((v % (4294967296 : Int)).toNat) = v := by
      simp only [toSigned]
      split_ifs <;> omega
    refine ⟨.signed v, ?_, rfl, ?_⟩
    · simp [value, widthOf, hwb, hb, he]
    · simp only [value_abs, absWith, baseOf, toSigned]
      split_ifs <;> (congr 1; omega)
  · simp only [encRange] at hv
    simp only [baseOf] at hlo hhi
    have hwb : encodeValue 0x1c v = toLEBytes 8 ((v % (18446744073709551616 : Int)).toNat) := by
      simp [encodeValue, widthOf]
    have hb : readLE 8 (toLEBytes 8 ((v % (18446744073709551616 : Int)).toNat)) =
        some ((v % (18446744073709551616 : Int)).toNat) :=
      readLE_toLEBytes 8 _ (by omega)
    have he : toSigned 64 ((v % (18446744073709551616 : Int)).toNat) = v := by
      simp only [toSigned]
      split_ifs <;> omega
    refine ⟨.signed v, ?_, rfl, ?_⟩
    · simp [value, widthOf, hwb, hb, he]
    · simp only [value_abs, absWith, baseOf, toSigned]
      split_ifs <;> (congr 1; omega)
  · simp only [encRange] at hv
    simp only [baseOf] at hlo hhi
    have hwb : encodeValue 0x32 v = toLEBytes 2 ((v % (65536 : Int)).toNat) := by
      simp [encodeValue, widthOf]
    have hb : readLE 2 (toLEBytes 2 ((v % (65536 : Int)).toNat)) =
        some ((v % (65536 : Int)).toNat) :=
      readLE_toLEBytes 2 _ (by omega)
    refine ⟨.unsigned v.toNat, ?_, by simp only [valToInt]; omega, ?_⟩
    · simp [value, widthOf, hwb, hb]
      omega
    · simp only [value_abs, absWith, baseOf]
      congr 1
      omega
  · simp only [encRange] at hv
    simp only [baseOf] at hlo hhi
    have hwb : encodeValue 0x33 v = toLEBytes 4 ((v % (4294967296 : Int)).toNat) := by
      simp [encodeValue, widthOf]
    have hb : readLE 4 (toLEBytes 4 ((v % (4294967296 : Int)).toNat)) =
        some ((v % (4294967296 : Int)).toNat) :=
      readLE_toLEBytes 4 _ (by omega)
    refine ⟨.unsigned v.toNat, ?_, by simp only [valToInt]; omega, ?_⟩
    · simp [value, widthOf, hwb, hb]
      omega
    · simp only [value_abs, absWith, baseOf]
      congr 1
      omega
  · simp only [encRange] at hv
    simp only [baseOf] at hlo hhi
    have hwb : encodeValue 0x34 v = toLEBytes 8 ((v % (18446744073709551616 : Int)).toNat) := by
      simp [encodeValue, widthOf]
    have hb : readLE 8 (toLEBytes 8 ((v % (18446744073709551616 : Int)).toNat)) =
        some ((v % (18446744073709551616 : Int)).toNat) :=
      readLE_toLEBytes 8 _ (by omega)
    refine ⟨.unsigned v.toNat, ?_, by simp only [valToInt]; omega, ?_⟩
    · simp [value, widthOf, hwb, hb]
      omega
    · simp only [value_abs, absWith, baseOf]
      congr 1
      omega
  · simp only [encRange] at hv
    simp only [baseOf] at hlo hhi
    have hwb : encodeValue 0x3a v = toLEBytes 2 ((v % (65536 : Int)).toNat) := by
      simp [encodeValue, widthOf]
    have hb : readLE 2 (toLEBytes 2 ((v % (65536 : Int)).toNat)) =
        some ((v % (65536 : Int)).toNat) :=
      readLE_toLEBytes 2 _ (by omega)
    have he : toSigned 16 ((v % (65536 : Int)).toNat) = v := by
      simp only [toSigned]
      split_ifs <;> omega
    refine ⟨.signed v, ?_, rfl, ?_⟩
    · simp [value, widthOf, hwb, hb, he]
    · simp only [value_abs, absWith, baseOf, toSigned]
      split_ifs <;> (congr 1; omega)
  · simp only [encRange] at hv
    simp only [baseOf] at hlo hhi
    have hwb : encodeValue 0x3b v = toLEBytes 4 ((v % (4294967296 : Int)).toNat) := by
      simp [encodeValue, widthOf]
    have hb : readLE 4 (toLEBytes 4 ((v % (4294967296 : Int)).toNat)) =
        some ((v % (4294967296 : Int)).toNat) :=
      readLE_toLEBytes 4 _ (by omega)
    have he : toSigned 32 ((v % (4294967296 : Int)).toNat) = v := by
      simp only [toSigned]
      split_ifs <;> omega
    refine ⟨.signed v, ?_, rfl, ?_⟩
    · simp [value, widthOf, hwb, hb, he]
    · simp only [value_abs, absWith, baseOf, toSigned]
      split_ifs <;> (congr 1; omega)
  · simp only [encRange] at hv
    simp only [baseOf] at hlo hhi
    have hwb : encodeValue 0x3c v = toLEBytes 8 ((v % (18446744073709551616 : Int)).toNat) := by
      simp [encodeValue, widthOf]
    have hb : readLE 8 (toLEBytes 8 ((v % (18446744073709551616 : Int)).toNat)) =
        some ((v % (18446744073709551616 : Int)).toNat) :=
      readLE_toLEBytes 8 _ (by omega)
    have he : toSigned 64 ((v % (18446744073709551616 : Int)).toNat) = v := by
      simp only [toSigned]
      split_ifs <;> omega
    refine ⟨.signed v, ?_, rfl, ?_⟩
    · simp [value, widthOf, hwb, hb, he]
    · simp only [value_abs, absWith, baseOf, toSigned]
      split_ifs <;> (congr 1; omega)


/-- Witness for C2 at the pc-relative i32 encoding `0x1b`, value `-20`,
`pc = 0x2000`. -/
theorem decode_resolve_roundtrip_witness :
    ∃ val, value 0x1b (encodeValue 0x1b (-20)) = .ok (widthOf 0x1b) val ∧
      valToInt val = -20 ∧
      value_abs 0x1b val 0x2000 0x1800 =
        .ok (((baseOf 0x1b 0x2000 0x1800 : Int) + (-20)).toNat) :=
  decode_resolve_roundtrip 0x1b (-20) 0x2000 0x1800 (by decide)
    (by norm_num [encRange]) (by norm_num) (by norm_num)
    (by norm_num [baseOf]) (by norm_num [baseOf])

end ElfInfo

